import Mathlib

/-!
# Verification of the aggregation core of `monitoramento_legislativo`

Shallow embedding of `src/App.jsx` (the only source file of the repository):
the proposition-code parser, the week-start helper, the three derived view
models (latest movements, ranking by changes, weekly series), the color
assigner, and the batch-orchestration action.

Modelling conventions, used throughout:
* JavaScript numbers are modelled as exact integers (`Int`/`Nat`).  All the
  numeric values produced by this program (char codes, 32-bit hash values,
  movement counts, epoch-day arithmetic) stay far below 2^53, where float64
  arithmetic is exact, so the idealisation is faithful.
* JavaScript 32-bit operations (`<<`, `>>`, `& 0xFF`) are modelled via
  `toInt32` (reduction into `[-2^31, 2^31)`), floor division and `emod` —
  the standard value-level semantics of `ToInt32`, arithmetic shift and
  bitwise mask on two's-complement 32-bit integers.
* Strings are Lean `String`s (sequences of unicode scalars).  Where the JS
  code indexes UTF-16 code units (`charCodeAt`/`length` in the hash loop),
  the model expands each scalar into its UTF-16 code units explicitly.
* `Date` computations assume the runtime timezone is UTC, so the local
  calendar fields seen by `getDay`/`getDate`/`setDate` coincide with the
  fields of the ISO string and `toISOString` preserves them.  (The spec
  itself flags the week-start computation as locale-sensitive; the claims'
  concrete values are its UTC/locale-neutral readings.)
-/

/-! ## JS 32-bit integer semantics -/

/-- `ToInt32`: reduce an integer into `[-2^31, 2^31)` modulo `2^32`,
as JS does before any `<<`, `>>` or `&` operation. -/
def toInt32 (x : Int) : Int := (x + 2 ^ 31) % 2 ^ 32 - 2 ^ 31

theorem toInt32_emod (x : Int) : toInt32 x % 2 ^ 32 = x % 2 ^ 32 := by
  unfold toInt32; omega

theorem toInt32_range (x : Int) : -2 ^ 31 ≤ toInt32 x ∧ toInt32 x < 2 ^ 31 := by
  unfold toInt32
  have h1 : 0 ≤ (x + 2 ^ 31) % 2 ^ 32 := Int.emod_nonneg _ (by norm_num)
  have h2 : (x + 2 ^ 31) % 2 ^ 32 < 2 ^ 32 := Int.emod_lt_of_pos _ (by norm_num)
  omega

theorem toInt32_eq_of_emod (x y : Int) (h : x % 2 ^ 32 = y % 2 ^ 32) :
    toInt32 x = toInt32 y := by
  unfold toInt32; omega

theorem toInt32_of_range {x : Int} (h1 : -2 ^ 31 ≤ x) (h2 : x < 2 ^ 31) :
    toInt32 x = x := by
  unfold toInt32; omega

/-! ## Color assigner (`getPropositionColor`, App.jsx lines 211–222)

```js
const getPropositionColor = (code) => {
  let hash = 0;
  for (let i = 0; i < code.length; i++) {
    hash = code.charCodeAt(i) + ((hash << 5) - hash);
  }
  let color = '#';
  for (let i = 0; i < 3; i++) {
    const value = (hash >> (i * 8)) & 0xFF;
    color += ('00' + value.toString(16)).substr(-2);
  }
  return color;
};
```

`code.length` and `charCodeAt` walk UTF-16 code units, so each unicode
scalar is expanded into its code units.  In the loop only the shift operand
is reduced to 32 bits (`hash << 5` = `ToInt32(hash) << 5` wrapped); the
running `hash` itself lives as a JS number, which the model keeps as an
exact `Int` (its magnitude grows only linearly, far below 2^53). -/

/-- The UTF-16 code units of one unicode scalar (surrogate pair when
outside the BMP), as seen by `charCodeAt`. -/
def utf16Units (c : Char) : List Nat :=
  if c.toNat < 0x10000 then [c.toNat]
  else [0xD800 + (c.toNat - 0x10000) / 0x400, 0xDC00 + (c.toNat - 0x10000) % 0x400]

/-- The UTF-16 code-unit sequence of a string. -/
def strUnits (s : String) : List Nat := s.data.flatMap utf16Units

/-- One iteration of the hash loop: `hash = charCode + ((hash << 5) - hash)`.
`hash << 5` is `ToInt32` of the 32-fold value (the shift wraps); the outer
addition and subtraction are plain number arithmetic. -/
def hashStepJs (h : Int) (c : Nat) : Int := (c : Int) + (toInt32 (32 * h) - h)

/-- The accumulated hash of `getPropositionColor`. -/
def jsHash (code : String) : Int := (strUnits code).foldl hashStepJs 0

/-- `(hash >> (i * 8)) & 0xFF`: `>>` reduces to int32 then arithmetic-shifts
(floor division by `2^(8i)`); `& 0xFF` keeps the low byte of the
two's-complement representation (`emod 256`). -/
def byteOf (h : Int) (i : Nat) : Int := (toInt32 h).fdiv (2 ^ (i * 8)) % 256

/-- `Number.prototype.toString(16)` digit for a value below 16 (lowercase). -/
def hexDigitChar (n : Nat) : Char :=
  Char.ofNat (if n < 10 then 48 + n else 87 + n)

/-- `value.toString(16)` for `value < 256`: one or two lowercase hex digits. -/
def jsHexString (n : Nat) : String :=
  if n < 16 then String.mk [hexDigitChar n]
  else String.mk [hexDigitChar (n / 16), hexDigitChar (n % 16)]

/-- `('00' + s).substr(-2)`: the last two characters of `'00' + s`. -/
def pad2 (s : String) : String :=
  String.mk ((("00" ++ s).data.reverse.take 2).reverse)

/-- `getPropositionColor` (App.jsx lines 211–222). -/
def getPropositionColor (code : String) : String :=
  let hash := jsHash code
  "#" ++ pad2 (jsHexString (byteOf hash 0).toNat)
      ++ pad2 (jsHexString (byteOf hash 1).toNat)
      ++ pad2 (jsHexString (byteOf hash 2).toNat)

/-! Reference definition of the color assigner, following the spec's words
(§4.4): the hash is kept as a 32-bit signed value with two's-complement
wraparound at every step, bytes `(hash >> (8*i)) & 0xFF` are emitted as
two-digit zero-padded hex after `#`. -/

/-- Modelled from the spec: one step of the reference hash,
`hash = charCode + ((hash << 5) - hash)` with 32-bit wraparound. -/
def hashStepRef (g : Int) (c : Nat) : Int := toInt32 ((c : Int) + (toInt32 (32 * g) - g))

/-- Modelled from the spec: the reference 32-bit signed hash. -/
def refHash (code : String) : Int := (strUnits code).foldl hashStepRef 0

/-- Modelled from the spec: two-digit zero-padded lowercase hex. -/
def hex2 (n : Nat) : String := String.mk [hexDigitChar (n / 16), hexDigitChar (n % 16)]

/-- Modelled from the spec: the reference color assembler,
`#` + byte0 + byte1 + byte2 with byte i = `(hash >> (8*i)) & 0xFF`. -/
def colorForRef (code : String) : String :=
  let h := refHash code
  "#" ++ hex2 (h.fdiv (2 ^ (0 * 8)) % 256).toNat
      ++ hex2 (h.fdiv (2 ^ (1 * 8)) % 256).toNat
      ++ hex2 (h.fdiv (2 ^ (2 * 8)) % 256).toNat

/-! ### Equivalence of the source hash with the 32-bit reference hash -/

theorem hash_fold_congr :
    ∀ (units : List Nat) (h g : Int), h % 2 ^ 32 = g % 2 ^ 32 →
      (units.foldl hashStepJs h) % 2 ^ 32 = (units.foldl hashStepRef g) % 2 ^ 32 := by
  intro units
  induction units with
  | nil => intro h g hhg; simpa using hhg
  | cons c rest ih =>
    intro h g hhg
    simp only [List.foldl_cons]
    apply ih
    have h1 := toInt32_emod (32 * h)
    have h2 := toInt32_emod (32 * g)
    have h3 := toInt32_emod ((c : Int) + (toInt32 (32 * g) - g))
    unfold hashStepJs hashStepRef
    omega

theorem refHash_range (code : String) :
    -2 ^ 31 ≤ refHash code ∧ refHash code < 2 ^ 31 := by
  unfold refHash
  generalize strUnits code = units
  have main : ∀ (l : List Nat) (g : Int), -2 ^ 31 ≤ g ∧ g < 2 ^ 31 →
      -2 ^ 31 ≤ l.foldl hashStepRef g ∧ l.foldl hashStepRef g < 2 ^ 31 := by
    intro l
    induction l with
    | nil => intro g hg; simpa using hg
    | cons c rest ih =>
      intro g _
      simp only [List.foldl_cons]
      exact ih _ (toInt32_range _)
  exact main units 0 (by norm_num)

theorem toInt32_jsHash (code : String) : toInt32 (jsHash code) = refHash code := by
  have h := hash_fold_congr (strUnits code) 0 0 rfl
  have he := toInt32_eq_of_emod (jsHash code) (refHash code) h
  rw [he]
  exact toInt32_of_range (refHash_range code).1 (refHash_range code).2

theorem byteOf_nonneg (h : Int) (i : Nat) : 0 ≤ byteOf h i :=
  Int.emod_nonneg _ (by norm_num)

theorem byteOf_lt (h : Int) (i : Nat) : byteOf h i < 256 :=
  Int.emod_lt_of_pos _ (by norm_num)

theorem pad2_jsHexString (n : Nat) :
    pad2 (jsHexString n) = hex2 n := by
  by_cases h16 : n < 16
  · have hdiv : n / 16 = 0 := Nat.div_eq_of_lt h16
    have hmod : n % 16 = n := Nat.mod_eq_of_lt h16
    simp [pad2, jsHexString, hex2, h16, hdiv, hmod, String.data_append, hexDigitChar]
  · simp [pad2, jsHexString, hex2, h16, String.data_append]

theorem pad2_length (s : String) : (pad2 s).length = 2 := by
  show ((("00" ++ s).data.reverse.take 2).reverse).length = 2
  simp [String.data_append]


/-- **C6.** For every input string, `getPropositionColor` equals the
reference definition built from the spec's words (32-bit signed hash
`hash = charCode + ((hash << 5) - hash)` with two's-complement wraparound,
bytes `(hash >> (8*i)) & 0xFF` for `i = 0, 1, 2`, emitted as `#` followed
by two-digit zero-padded hex), and the result is always a 7-character
string. -/
theorem getPropositionColor_eq_colorForRef (code : String) :
    getPropositionColor code = colorForRef code ∧
      (getPropositionColor code).length = 7 := by
  constructor
  · show "#" ++ pad2 (jsHexString (byteOf (jsHash code) 0).toNat)
        ++ pad2 (jsHexString (byteOf (jsHash code) 1).toNat)
        ++ pad2 (jsHexString (byteOf (jsHash code) 2).toNat)
      = "#" ++ hex2 ((refHash code).fdiv (2 ^ (0 * 8)) % 256).toNat
        ++ hex2 ((refHash code).fdiv (2 ^ (1 * 8)) % 256).toNat
        ++ hex2 ((refHash code).fdiv (2 ^ (2 * 8)) % 256).toNat
    rw [pad2_jsHexString, pad2_jsHexString, pad2_jsHexString]
    unfold byteOf
    rw [toInt32_jsHash]
  · show ("#" ++ pad2 (jsHexString (byteOf (jsHash code) 0).toNat)
        ++ pad2 (jsHexString (byteOf (jsHash code) 1).toNat)
        ++ pad2 (jsHexString (byteOf (jsHash code) 2).toNat)).length = 7
    simp [String.length_append, pad2_length]
    rfl

/-- **C10.** On the empty string the hash accumulator stays `0` and the
color is exactly `"#000000"`; on every string each extracted byte lies in
`[0, 255]` and therefore formats as exactly two hex digits. -/
theorem getPropositionColor_empty_and_total :
    jsHash "" = 0 ∧ getPropositionColor "" = "#000000" ∧
      ∀ (code : String) (i : Fin 3),
        0 ≤ byteOf (jsHash code) i.val ∧ byteOf (jsHash code) i.val ≤ 255 ∧
          (pad2 (jsHexString (byteOf (jsHash code) i.val).toNat)).length = 2 := by
  refine ⟨rfl, rfl, ?_⟩
  intro code i
  refine ⟨byteOf_nonneg _ _, by have := byteOf_lt (jsHash code) i.val; omega, pad2_length _⟩

/-! ## Code parser (`parsePropositionCode`, App.jsx lines 28–38)

```js
const parsePropositionCode = (code) => {
  const parts = code.match(/([A-Z]+)\s*(\d+)\/(\d{4})/i);
  if (parts && parts.length === 4) {
    return {
      siglaTipo: parts[1].toUpperCase(),
      numero: parseInt(parts[2], 10),
      ano: parseInt(parts[3], 10),
    };
  }
  return null;
};
```

The regex is unanchored; `match` returns the leftmost match.  Because the
three character classes (`[A-Za-z]`, `\s`, `\d`) are pairwise disjoint and
`/` belongs to none of them, backtracking inside the quantifiers can never
turn a failure into a success: at a given start position the engine
deterministically takes the maximal letter run, the maximal whitespace run
and the maximal digit run, then requires `/` and four digits.  `matchAt`
below is that deterministic matcher and `regexSearch` tries successive
start positions left to right, exactly as the engine does.  On a match
`parts.length === 4` always holds (a full match plus three groups), so
that test in the source is vacuous. -/

/-- The class `[A-Z]` under the `i` flag: ASCII letters. -/
def isRegexLetter (c : Char) : Bool :=
  (65 ≤ c.toNat && c.toNat ≤ 90) || (97 ≤ c.toNat && c.toNat ≤ 122)

/-- The class `\d`: ASCII digits. -/
def isRegexDigit (c : Char) : Bool := 48 ≤ c.toNat && c.toNat ≤ 57

/-- The class `\s`: the ECMAScript whitespace and line-terminator set. -/
def isRegexSpace (c : Char) : Bool :=
  c.toNat == 9 || c.toNat == 10 || c.toNat == 11 || c.toNat == 12 || c.toNat == 13 ||
  c.toNat == 32 || c.toNat == 160 || c.toNat == 0x1680 ||
  (0x2000 ≤ c.toNat && c.toNat ≤ 0x200A) ||
  c.toNat == 0x2028 || c.toNat == 0x2029 || c.toNat == 0x202F || c.toNat == 0x205F ||
  c.toNat == 0x3000 || c.toNat == 0xFEFF

/-- Attempt the pattern `([A-Z]+)\s*(\d+)\/(\d{4})` (flag `i`) at the head
of `l`; returns the three captured groups. -/
def matchAt (l : List Char) : Option (List Char × List Char × List Char) :=
  let letters := l.takeWhile isRegexLetter
  if letters.isEmpty then none
  else
    let r2 := (l.dropWhile isRegexLetter).dropWhile isRegexSpace
    let digits := r2.takeWhile isRegexDigit
    if digits.isEmpty then none
    else
      match r2.dropWhile isRegexDigit with
      | '/' :: rest =>
        let y := rest.take 4
        if y.length == 4 && y.all isRegexDigit then some (letters, digits, y) else none
      | _ => none

/-- Leftmost unanchored search, as `String.prototype.match` performs. -/
def regexSearch : List Char → Option (List Char × List Char × List Char)
  | [] => none
  | c :: rest =>
    match matchAt (c :: rest) with
    | some r => some r
    | none => regexSearch rest

/-- `parseInt(·, 10)` on a digit-only string (exact-integer idealisation). -/
def natOfDigits (l : List Char) : Nat := l.foldl (fun n c => 10 * n + (c.toNat - 48)) 0

/-- The structured result of the code parser. -/
structure ParsedCode where
  siglaTipo : String
  numero : Int
  ano : Int
deriving DecidableEq

/-- `parsePropositionCode` (App.jsx lines 28–38).  `toUpperCase` is applied
to a string of ASCII letters only (group 1), where it agrees with
`Char.toUpper`. -/
def parsePropositionCode (code : String) : Option ParsedCode :=
  (regexSearch code.data).map fun r =>
    { siglaTipo := String.mk (r.1.map Char.toUpper),
      numero := (natOfDigits r.2.1 : Int),
      ano := (natOfDigits r.2.2 : Int) }

/-- The string contains — in order — a letter run, optional whitespace, a
digit run, a literal `/` and four digits (the spec's validity condition). -/
def hasPattern (s : String) : Prop :=
  ∃ pre L W D Y post, s.data = pre ++ L ++ W ++ D ++ '/' :: (Y ++ post) ∧
    L ≠ [] ∧ (∀ c ∈ L, isRegexLetter c) ∧ (∀ c ∈ W, isRegexSpace c) ∧
    D ≠ [] ∧ (∀ c ∈ D, isRegexDigit c) ∧ Y.length = 4 ∧ ∀ c ∈ Y, isRegexDigit c

/-! ### Character-class facts -/

theorem space_not_letter {c : Char} (h : isRegexSpace c = true) : isRegexLetter c = false := by
  unfold isRegexSpace at h
  unfold isRegexLetter
  simp only [Bool.or_eq_true, beq_iff_eq, Bool.and_eq_true, decide_eq_true_eq] at h
  simp only [Bool.or_eq_false_iff, Bool.and_eq_false_iff, decide_eq_false_iff_not, not_le]
  omega

theorem digit_not_letter {c : Char} (h : isRegexDigit c = true) : isRegexLetter c = false := by
  unfold isRegexDigit at h
  unfold isRegexLetter
  simp only [Bool.and_eq_true, decide_eq_true_eq] at h
  simp only [Bool.or_eq_false_iff, Bool.and_eq_false_iff, decide_eq_false_iff_not, not_le]
  omega

theorem digit_not_space {c : Char} (h : isRegexDigit c = true) : isRegexSpace c = false := by
  unfold isRegexDigit at h
  unfold isRegexSpace
  simp only [Bool.and_eq_true, decide_eq_true_eq] at h
  simp only [Bool.or_eq_false_iff, Bool.and_eq_false_iff, beq_eq_false_iff_ne, ne_eq,
    decide_eq_false_iff_not, not_le]
  omega

theorem slash_not_digit : isRegexDigit '/' = false := by decide

/-! ### Soundness and completeness of the matcher -/

theorem matchAt_sound {l L D Y : List Char} (h : matchAt l = some (L, D, Y)) :
    ∃ W post, l = L ++ W ++ D ++ '/' :: (Y ++ post) ∧
      L ≠ [] ∧ (∀ c ∈ L, isRegexLetter c) ∧ (∀ c ∈ W, isRegexSpace c) ∧
      D ≠ [] ∧ (∀ c ∈ D, isRegexDigit c) ∧ Y.length = 4 ∧ ∀ c ∈ Y, isRegexDigit c := by
  unfold matchAt at h
  simp only at h
  split at h
  · exact absurd h (by simp)
  · split at h
    · exact absurd h (by simp)
    · rename_i hletters hdigits
      split at h
      · rename_i rest hrest
        split at h
        · rename_i hcond
          injection h with h
          injection h with h1 h
          injection h with h2 h3
          simp only [Bool.and_eq_true, beq_iff_eq, List.all_eq_true] at hcond
          refine ⟨(l.dropWhile isRegexLetter).takeWhile isRegexSpace, rest.drop 4,
            ?_, ?_, ?_, fun c hc => List.mem_takeWhile_imp hc, ?_, ?_, ?_, ?_⟩
          · rw [← h1, ← h2, ← h3]
            have b4 : rest.take 4 ++ rest.drop 4 = rest := List.take_append_drop 4 rest
            have hassoc :
                l.takeWhile isRegexLetter ++ (l.dropWhile isRegexLetter).takeWhile isRegexSpace ++
                    ((l.dropWhile isRegexLetter).dropWhile isRegexSpace).takeWhile isRegexDigit ++
                    '/' :: (rest.take 4 ++ rest.drop 4) =
                  l.takeWhile isRegexLetter ++
                    ((l.dropWhile isRegexLetter).takeWhile isRegexSpace ++
                      (((l.dropWhile isRegexLetter).dropWhile isRegexSpace).takeWhile isRegexDigit ++
                        '/' :: (rest.take 4 ++ rest.drop 4))) := by
              simp [List.append_assoc]
            rw [hassoc, b4, ← hrest, List.takeWhile_append_dropWhile,
              List.takeWhile_append_dropWhile, List.takeWhile_append_dropWhile]
          · rw [← h1]; simpa using hletters
          · rw [← h1]; exact fun c hc => List.mem_takeWhile_imp hc
          · rw [← h2]; simpa using hdigits
          · rw [← h2]; exact fun c hc => List.mem_takeWhile_imp hc
          · rw [← h3]; exact hcond.1
          · rw [← h3]; exact fun c hc => hcond.2 c hc
        · exact absurd h (by simp)
      · exact absurd h (by simp)

theorem matchAt_complete (L W D Y post : List Char)
    (hL : L ≠ []) (hLa : ∀ c ∈ L, isRegexLetter c) (hW : ∀ c ∈ W, isRegexSpace c)
    (hD : D ≠ []) (hDa : ∀ c ∈ D, isRegexDigit c) (hY : Y.length = 4)
    (hYa : ∀ c ∈ Y, isRegexDigit c) :
    matchAt (L ++ W ++ D ++ '/' :: (Y ++ post)) = some (L, D, Y) := by
  obtain ⟨d, D', rfl⟩ : ∃ d D', D = d :: D' := by
    cases D with
    | nil => exact absurd rfl hD
    | cons d D' => exact ⟨d, D', rfl⟩
  have hd : isRegexDigit d := hDa d (by simp)
  have hheadNotLetter :
      (W ++ (d :: D') ++ '/' :: (Y ++ post)).takeWhile isRegexLetter = [] ∧
        (W ++ (d :: D') ++ '/' :: (Y ++ post)).dropWhile isRegexLetter =
          W ++ (d :: D') ++ '/' :: (Y ++ post) := by
    cases W with
    | nil =>
      constructor <;>
        simp [List.takeWhile_cons, List.dropWhile_cons, digit_not_letter hd]
    | cons w W' =>
      have hw : isRegexSpace w := hW w (by simp)
      constructor <;>
        simp [List.takeWhile_cons, List.dropWhile_cons, space_not_letter hw]
  have htake :
      (L ++ W ++ (d :: D') ++ '/' :: (Y ++ post)).takeWhile isRegexLetter = L := by
    rw [List.append_assoc, List.append_assoc, List.takeWhile_append_of_pos hLa,
      ← List.append_assoc, hheadNotLetter.1, List.append_nil]
  have hdrop :
      (L ++ W ++ (d :: D') ++ '/' :: (Y ++ post)).dropWhile isRegexLetter =
        W ++ (d :: D') ++ '/' :: (Y ++ post) := by
    rw [List.append_assoc, List.append_assoc, List.dropWhile_append_of_pos hLa,
      ← List.append_assoc, hheadNotLetter.2]
  have hdropSpace :
      (W ++ (d :: D') ++ '/' :: (Y ++ post)).dropWhile isRegexSpace =
        (d :: D') ++ '/' :: (Y ++ post) := by
    rw [List.append_assoc, List.dropWhile_append_of_pos hW]
    simp [List.dropWhile_cons, digit_not_space hd]
  have htakeDigit :
      ((d :: D') ++ '/' :: (Y ++ post)).takeWhile isRegexDigit = d :: D' := by
    rw [List.takeWhile_append_of_pos hDa]
    simp [List.takeWhile_cons, slash_not_digit]
  have hdropDigit :
      ((d :: D') ++ '/' :: (Y ++ post)).dropWhile isRegexDigit = '/' :: (Y ++ post) := by
    rw [List.dropWhile_append_of_pos hDa]
    simp [List.dropWhile_cons, slash_not_digit]
  have hy : (Y ++ post).take 4 = Y := by
    rw [← hY]
    exact List.take_left Y post
  unfold matchAt
  simp only [htake, hdrop, hdropSpace, htakeDigit, hdropDigit, hy]
  rw [if_neg (by simpa using hL), if_neg (by simp), if_pos]
  simp only [Bool.and_eq_true, beq_iff_eq, List.all_eq_true]
  exact ⟨hY, hYa⟩

theorem regexSearch_sound :
    ∀ {l : List Char} {L D Y : List Char}, regexSearch l = some (L, D, Y) →
      ∃ pre W post, l = pre ++ L ++ W ++ D ++ '/' :: (Y ++ post) ∧
        L ≠ [] ∧ (∀ c ∈ L, isRegexLetter c) ∧ (∀ c ∈ W, isRegexSpace c) ∧
        D ≠ [] ∧ (∀ c ∈ D, isRegexDigit c) ∧ Y.length = 4 ∧ ∀ c ∈ Y, isRegexDigit c := by
  intro l
  induction l with
  | nil => intro L D Y h; simp [regexSearch] at h
  | cons c rest ih =>
    intro L D Y h
    unfold regexSearch at h
    split at h
    · rename_i r hm
      injection h with h
      subst h
      obtain ⟨W, post, hsplit, hprops⟩ := matchAt_sound hm
      exact ⟨[], W, post, by simpa using hsplit, hprops⟩
    · obtain ⟨pre, W, post, hsplit, hprops⟩ := ih h
      refine ⟨c :: pre, W, post, ?_, hprops⟩
      simp only [List.cons_append]
      rw [← hsplit]

theorem regexSearch_complete :
    ∀ (pre L W D Y post : List Char),
      L ≠ [] → (∀ c ∈ L, isRegexLetter c) → (∀ c ∈ W, isRegexSpace c) →
      D ≠ [] → (∀ c ∈ D, isRegexDigit c) → Y.length = 4 → (∀ c ∈ Y, isRegexDigit c) →
      (regexSearch (pre ++ L ++ W ++ D ++ '/' :: (Y ++ post))).isSome := by
  intro pre
  induction pre with
  | nil =>
    intro L W D Y post hL hLa hW hD hDa hY hYa
    cases L with
    | nil => exact absurd rfl hL
    | cons a L' =>
      have hm := matchAt_complete (a :: L') W D Y post hL hLa hW hD hDa hY hYa
      simp only [List.cons_append, List.append_assoc, List.nil_append] at hm ⊢
      unfold regexSearch
      rw [hm]
      rfl
  | cons c pre' ih =>
    intro L W D Y post hL hLa hW hD hDa hY hYa
    have hrec := ih L W D Y post hL hLa hW hD hDa hY hYa
    simp only [List.cons_append, List.append_assoc] at hrec ⊢
    unfold regexSearch
    split
    · rfl
    · simpa using hrec

/-! ### Parser facts shared by the claims -/

theorem char_toNat_ofNat {n : Nat} (h : n.isValidChar) : (Char.ofNat n).toNat = n := by
  rw [Char.ofNat, dif_pos h]; rfl

theorem toUpper_of_letter {c : Char} (h : isRegexLetter c = true) :
    65 ≤ (Char.toUpper c).toNat ∧ (Char.toUpper c).toNat ≤ 90 := by
  unfold isRegexLetter at h
  simp only [Bool.or_eq_true, Bool.and_eq_true, decide_eq_true_eq] at h
  unfold Char.toUpper
  by_cases hc : c.toNat ≥ 97 ∧ c.toNat ≤ 122
  · rw [if_pos hc]
    have hv : (c.toNat - 32).isValidChar := Or.inl (by omega)
    rw [char_toNat_ofNat hv]
    omega
  · rw [if_neg hc]
    omega

theorem parse_some_decomp {s : String} {r : ParsedCode}
    (h : parsePropositionCode s = some r) :
    ∃ pre L W D Y post, s.data = pre ++ L ++ W ++ D ++ '/' :: (Y ++ post) ∧
      L ≠ [] ∧ (∀ c ∈ L, isRegexLetter c) ∧ (∀ c ∈ W, isRegexSpace c) ∧
      D ≠ [] ∧ (∀ c ∈ D, isRegexDigit c) ∧ Y.length = 4 ∧ (∀ c ∈ Y, isRegexDigit c) ∧
      r = ⟨String.mk (L.map Char.toUpper), (natOfDigits D : Int), (natOfDigits Y : Int)⟩ := by
  unfold parsePropositionCode at h
  rw [Option.map_eq_some'] at h
  obtain ⟨⟨L, D, Y⟩, hsearch, hf⟩ := h
  obtain ⟨pre, W, post, hsplit, hL, hLa, hW, hD, hDa, hY, hYa⟩ := regexSearch_sound hsearch
  exact ⟨pre, L, W, D, Y, post, hsplit, hL, hLa, hW, hD, hDa, hY, hYa, hf.symm⟩

theorem parse_none_iff (s : String) : parsePropositionCode s = none ↔ ¬ hasPattern s := by
  constructor
  · intro hnone hpat
    obtain ⟨pre, L, W, D, Y, post, hsplit, hL, hLa, hW, hD, hDa, hY, hYa⟩ := hpat
    have hc := regexSearch_complete pre L W D Y post hL hLa hW hD hDa hY hYa
    rw [← hsplit] at hc
    unfold parsePropositionCode at hnone
    rw [Option.map_eq_none'] at hnone
    rw [hnone] at hc
    simp at hc
  · intro hnpat
    cases hp : regexSearch s.data with
    | none => unfold parsePropositionCode; rw [hp]; rfl
    | some v =>
      obtain ⟨L, D, Y⟩ := v
      obtain ⟨pre, W, post, hsplit, hprops⟩ := regexSearch_sound hp
      exact absurd ⟨pre, L, W, D, Y, post, hsplit, hprops⟩ hnpat

/-- **C7.** For every string containing — in order — a letter sequence,
optional whitespace, a digit sequence, a literal `/` and a 4-digit year
(letters case-insensitive), the parser returns the letters uppercased, the
digit sequence as an integer and the 4 digits as an integer (the groups of
the leftmost match); for every string lacking this subsequence it returns
`null`. -/
theorem parsePropositionCode_spec (s : String) :
    (parsePropositionCode s = none ↔ ¬ hasPattern s) ∧
      ∀ r, parsePropositionCode s = some r →
        ∃ pre L W D Y post, s.data = pre ++ L ++ W ++ D ++ '/' :: (Y ++ post) ∧
          L ≠ [] ∧ (∀ c ∈ L, isRegexLetter c) ∧ (∀ c ∈ W, isRegexSpace c) ∧
          D ≠ [] ∧ (∀ c ∈ D, isRegexDigit c) ∧ Y.length = 4 ∧ (∀ c ∈ Y, isRegexDigit c) ∧
          r = ⟨String.mk (L.map Char.toUpper), (natOfDigits D : Int), (natOfDigits Y : Int)⟩ :=
  ⟨parse_none_iff s, fun _ hr => parse_some_decomp hr⟩

/-- Witness for C7: `"PL 123/2023"` contains the pattern (derived by
applying the theorem to the evaluated parse result), and parses to
`{PL, 123, 2023}`. -/
theorem parsePropositionCode_spec_witness :
    hasPattern "PL 123/2023" ∧
      parsePropositionCode "PL 123/2023" = some ⟨"PL", 123, 2023⟩ := by
  have hsome : parsePropositionCode "PL 123/2023" = some ⟨"PL", 123, 2023⟩ := by decide
  refine ⟨?_, hsome⟩
  by_contra hnp
  have h := (parsePropositionCode_spec "PL 123/2023").1.mpr hnp
  rw [hsome] at h
  exact Option.noConfusion h

/-- Counterexample for C8 as stated: `"PL 0/0000"` parses successfully to
`numero = 0` and `ano = 0`, which are not positive integers. -/
theorem parse_positive_counterexample :
    parsePropositionCode "PL 0/0000" = some ⟨"PL", 0, 0⟩ ∧ ¬(0 < (0 : Int)) := by
  constructor
  · decide
  · decide

/-- **C8 (amended).** Every non-null parse result satisfies the invariant:
the type is a non-empty sequence of uppercase ASCII letters and the number
and year are *non-negative* integers (the digit runs `0` and `0000` parse
to zero, so positivity does not hold); malformed input is rejected as
`null`, never corrected. -/
theorem parse_invariant (s : String) (r : ParsedCode)
    (h : parsePropositionCode s = some r) :
    r.siglaTipo.data ≠ [] ∧ (∀ c ∈ r.siglaTipo.data, 65 ≤ c.toNat ∧ c.toNat ≤ 90) ∧
      0 ≤ r.numero ∧ 0 ≤ r.ano := by
  obtain ⟨pre, L, W, D, Y, post, hsplit, hL, hLa, hW, hD, hDa, hY, hYa, hr⟩ :=
    parse_some_decomp h
  subst hr
  refine ⟨by simpa using hL, ?_, Int.natCast_nonneg _, Int.natCast_nonneg _⟩
  intro c hc
  simp only [String.data] at hc
  obtain ⟨c', hc', rfl⟩ := List.mem_map.mp hc
  exact toUpper_of_letter (hLa c' hc')

/-- Witness for C8 (amended): the invariant instantiated at the parse of
`"PL 123/2023"`. -/
theorem parse_invariant_witness :
    ("PL" : String).data ≠ [] ∧
      (∀ c ∈ ("PL" : String).data, 65 ≤ c.toNat ∧ c.toNat ≤ 90) ∧
      0 ≤ (123 : Int) ∧ 0 ≤ (2023 : Int) :=
  parse_invariant "PL 123/2023" ⟨"PL", 123, 2023⟩ (by decide)

/-! ## Week-start helper (`getWeekStart`, App.jsx lines 19–25)

```js
const getWeekStart = (dateString) => {
  const date = new Date(dateString);
  const day = date.getDay(); // 0 for Sunday, 1 for Monday, etc.
  const diff = date.getDate() - day; // Adjust to Sunday
  const sunday = new Date(date.setDate(diff));
  return sunday.toISOString().split('T')[0]; // Return in YYYY-MM-DD format
};
```

Model (UTC environment, see the header): dates are proleptic-Gregorian
calendar days converted to and from days-since-1970 with the standard
civil-calendar algorithm; `getDay` is `(epochDay + 4) mod 7` (1970-01-01
was a Thursday); `setDate(diff)` with `diff = getDate() - day` shifts the
date by exactly `-day` days (out-of-range day-of-month values roll over
into adjacent months, which is precisely day arithmetic); `toISOString`
re-renders the calendar fields zero-padded. -/

/-- Days since 1970-01-01 of a civil date (proleptic Gregorian). -/
def toEpochDay (y0 m d : Int) : Int :=
  let y := if m ≤ 2 then y0 - 1 else y0
  let era := y.fdiv 400
  let yoe := y - era * 400
  let mp := if 2 < m then m - 3 else m + 9
  let doy := (153 * mp + 2).fdiv 5 + d - 1
  let doe := yoe * 365 + yoe.fdiv 4 - yoe.fdiv 100 + doy
  era * 146097 + doe - 719468

/-- Civil date `(y, m, d)` of a days-since-1970 count. -/
def fromEpochDay (z0 : Int) : Int × Int × Int :=
  let z := z0 + 719468
  let era := z.fdiv 146097
  let doe := z - era * 146097
  let yoe := (doe - doe.fdiv 1460 + doe.fdiv 36524 - doe.fdiv 146096).fdiv 365
  let y := yoe + era * 400
  let doy := doe - (365 * yoe + yoe.fdiv 4 - yoe.fdiv 100)
  let mp := (5 * doy + 2).fdiv 153
  let d := doy - (153 * mp + 2).fdiv 5 + 1
  let m := if mp < 10 then mp + 3 else mp - 9
  (if m ≤ 2 then y + 1 else y, m, d)

/-- `Date.prototype.getDay` on an epoch-day count: `0` is Sunday. -/
def dayOfWeekE (e : Int) : Int := (e + 4) % 7

/-- The epoch day of the Sunday selected by `setDate(getDate() - getDay())`:
shifting the day-of-month by `-day` shifts the date by `-day` days. -/
def weekStartE (e : Int) : Int := e - dayOfWeekE e

/-- The decimal digit character for `n < 10`. -/
def decDigitChar (n : Nat) : Char := Char.ofNat (48 + n)

/-- Zero-padded 2-digit decimal rendering (month/day of `toISOString`). -/
def padTwo (n : Nat) : String := String.mk [decDigitChar (n / 10 % 10), decDigitChar (n % 10)]

/-- Zero-padded 4-digit decimal rendering (year of `toISOString`, for years
in `[0, 9999]` — all dates this application sees). -/
def padFour (n : Nat) : String :=
  String.mk [decDigitChar (n / 1000 % 10), decDigitChar (n / 100 % 10),
    decDigitChar (n / 10 % 10), decDigitChar (n % 10)]

/-- `toISOString().split('T')[0]` of a civil date. -/
def formatISODate (ymd : Int × Int × Int) : String :=
  padFour ymd.1.toNat ++ "-" ++ padTwo ymd.2.1.toNat ++ "-" ++ padTwo ymd.2.2.toNat

/-- The calendar fields `new Date(dateString)` extracts from an ISO-8601
string `YYYY-MM-DD...` (UTC environment).  Non-ISO strings are out of the
claims' scope; the fallback keeps the function total. -/
def parseISODate (s : String) : Int × Int × Int :=
  match s.data with
  | c1 :: c2 :: c3 :: c4 :: _ :: c6 :: c7 :: _ :: c9 :: c10 :: _ =>
    ((natOfDigits [c1, c2, c3, c4] : Int), (natOfDigits [c6, c7] : Int),
      (natOfDigits [c9, c10] : Int))
  | _ => (1970, 1, 1)

/-- `getWeekStart` (App.jsx lines 19–25). -/
def getWeekStart (dateString : String) : String :=
  let ymd := parseISODate dateString
  let e := toEpochDay ymd.1 ymd.2.1 ymd.2.2
  formatISODate (fromEpochDay (weekStartE e))

/-- **C2.** The week-start function maps every date to the Sunday on or
before it (the selected epoch day has `getDay = 0`, is at most the input
day, and lies within six days of it); concretely, movements timestamped on
2024-01-07 (a Sunday) and 2024-01-10 (a Wednesday) both bucket to
`"2024-01-07"`, and one on 2024-01-06 (a Saturday) buckets to
`"2023-12-31"`. -/
theorem getWeekStart_spec :
    (∀ e : Int, dayOfWeekE (weekStartE e) = 0 ∧ weekStartE e ≤ e ∧ e < weekStartE e + 7) ∧
      getWeekStart "2024-01-07T12:00:00" = "2024-01-07" ∧
      getWeekStart "2024-01-10T12:00:00" = "2024-01-07" ∧
      getWeekStart "2024-01-06T12:00:00" = "2023-12-31" := by
  refine ⟨?_, by decide, by decide, by decide⟩
  intro e
  unfold weekStartE dayOfWeekE
  omega

/-! ## Data model (`selectedPropositions` entries, App.jsx lines 256–263)

`Movement` keeps the fields the aggregator reads (`dataHora`,
`descricaoTipo`, `descricaoSituacao`); optional API fields are `Option`,
and JS `||` falls through on both `undefined`/`null` and the empty string
(string falsiness), which `jsStrOr` reproduces. -/

structure Movement where
  dataHora : String
  descricaoTipo : Option String
  descricaoSituacao : Option String
deriving DecidableEq

structure StatusInfo where
  descricaoSituacao : Option String
  nomeSituacao : Option String
  despacho : Option String
  dataHora : Option String
  nomeOrgao : Option String
deriving DecidableEq

structure Proposition where
  codigo : String
  titulo : String
  andamentos : List Movement
  autores : List String
  statusProposicao : Option StatusInfo
deriving DecidableEq

/-- JS `a || b` where `a` is a possibly-absent string: absent and `""` are
falsy. -/
def jsStrOr (a : Option String) (b : String) : String :=
  match a with
  | some s => if s = "" then b else s
  | none => b

/-- `s.split('T')[0]`: the prefix before the first `'T'` (the whole string
when `'T'` does not occur). -/
def splitT (s : String) : String :=
  String.mk (s.data.takeWhile (fun c => c != 'T'))

/-! ## Latest movements (App.jsx lines 137–147)

```js
const allMovements = selectedPropositions.flatMap(prop =>
  prop.andamentos.map(mov => ({
    data: mov.dataHora.split('T')[0],
    descricao: mov.descricaoTipo || mov.descricaoSituacao || 'Andamento não especificado',
    codigo: prop.codigo,
    titulo: prop.titulo,
  }))
);
const sortedMovements = allMovements.sort((a, b) => new Date(b.data) - new Date(a.data));
setLatestMovements(sortedMovements.slice(0, 10));
```

`Array.prototype.sort` is a stable sort; with the consistent comparator
`new Date(b.data) - new Date(a.data)` (date-only strings parse to UTC
midnight, so comparison is by epoch day) the stable-sorted output is
unique, and `List.insertionSort` — which inserts every earlier element in
front of the later elements it ties with — is such a stable sort. -/

structure MovEntry where
  data : String
  descricao : String
  codigo : String
  titulo : String
deriving DecidableEq

def mkMovEntry (p : Proposition) (mv : Movement) : MovEntry :=
  { data := splitT mv.dataHora,
    descricao := jsStrOr mv.descricaoTipo (jsStrOr mv.descricaoSituacao
      "Andamento não especificado"),
    codigo := p.codigo,
    titulo := p.titulo }

def allMovements (props : List Proposition) : List MovEntry :=
  props.flatMap fun p => p.andamentos.map (mkMovEntry p)

/-- The time value `new Date(s)` compares by, up to the positive constant
86 400 000 (ms per day): the epoch day of the date part. -/
def dateVal (s : String) : Int :=
  let ymd := parseISODate s
  toEpochDay ymd.1 ymd.2.1 ymd.2.2

/-- The comparator `(a, b) => new Date(b.data) - new Date(a.data)` accepts
`a` before `b` iff it is `≤ 0`: most recent first. -/
def movRecentFirst (a b : MovEntry) : Prop := dateVal b.data ≤ dateVal a.data

instance : DecidableRel movRecentFirst :=
  fun a b => inferInstanceAs (Decidable (dateVal b.data ≤ dateVal a.data))

instance : IsTotal MovEntry movRecentFirst :=
  ⟨fun a b => le_total (dateVal b.data) (dateVal a.data)⟩

instance : IsTrans MovEntry movRecentFirst :=
  ⟨fun _ _ _ hab hbc => le_trans hbc hab⟩

def sortedMovements (props : List Proposition) : List MovEntry :=
  List.insertionSort movRecentFirst (allMovements props)

/-- `latestMovements` view model: `sortedMovements.slice(0, 10)`. -/
def latestMovements (props : List Proposition) : List MovEntry :=
  (sortedMovements props).take 10

/-- **C4.** The latest-movements view model never exceeds 10 entries, is
sorted descending by (date-only) date, and every entry is the date-only
projection of a movement of one of the propositions. -/
theorem latestMovements_spec (props : List Proposition) :
    (latestMovements props).length ≤ 10 ∧
      (latestMovements props).Pairwise movRecentFirst ∧
      ∀ e ∈ latestMovements props, ∃ p ∈ props, ∃ mv ∈ p.andamentos,
        e = mkMovEntry p mv ∧ e.data = splitT mv.dataHora := by
  refine ⟨?_, ?_, ?_⟩
  · simp [latestMovements, List.length_take]
  · exact List.Pairwise.sublist (List.take_sublist 10 _)
      (List.sorted_insertionSort movRecentFirst (allMovements props))
  · intro e he
    have he1 : e ∈ sortedMovements props := List.mem_of_mem_take he
    have he2 : e ∈ allMovements props :=
      (List.perm_insertionSort movRecentFirst (allMovements props)).mem_iff.mp he1
    simp only [allMovements, List.mem_flatMap, List.mem_map] at he2
    obtain ⟨p, hp, mv, hmv, rfl⟩ := he2
    exact ⟨p, hp, mv, hmv, rfl, rfl⟩

def demoMovement : Movement := ⟨"2024-01-10T12:00:00", some "Despacho", none⟩

def demoProposition : Proposition := ⟨"PL 123/2023", "Titulo", [demoMovement], [], none⟩

/-- Witness for C4: the spec applied to a singleton list. -/
theorem latestMovements_spec_witness :
    (latestMovements [demoProposition]).length ≤ 10 ∧
      ∃ p ∈ [demoProposition], ∃ mv ∈ p.andamentos,
        mkMovEntry demoProposition demoMovement = mkMovEntry p mv ∧
          (mkMovEntry demoProposition demoMovement).data = splitT mv.dataHora := by
  have h := latestMovements_spec [demoProposition]
  refine ⟨h.1, ?_⟩
  have hmem : mkMovEntry demoProposition demoMovement ∈ latestMovements [demoProposition] := by
    decide
  exact h.2.2 _ hmem

/-! ## Ranking by changes (App.jsx lines 149–156)

```js
const propositionsWithChangeCount = selectedPropositions.map(prop => ({
  codigo: prop.codigo,
  titulo: prop.titulo,
  numChanges: prop.andamentos.length,
}));
const sortedPropositionsByChanges =
  propositionsWithChangeCount.sort((a, b) => b.numChanges - a.numChanges);
```

Same stable-sort model as for the latest movements. -/

structure ChangeEntry where
  codigo : String
  titulo : String
  numChanges : Nat
deriving DecidableEq

def mkChangeEntry (p : Proposition) : ChangeEntry :=
  ⟨p.codigo, p.titulo, p.andamentos.length⟩

/-- The comparator `(a, b) => b.numChanges - a.numChanges` accepts `a`
before `b` iff it is `≤ 0`: most changes first. -/
def moreChangesFirst (a b : ChangeEntry) : Prop := b.numChanges ≤ a.numChanges

instance : DecidableRel moreChangesFirst :=
  fun a b => inferInstanceAs (Decidable (b.numChanges ≤ a.numChanges))

instance : IsTotal ChangeEntry moreChangesFirst :=
  ⟨fun a b => le_total b.numChanges a.numChanges⟩

instance : IsTrans ChangeEntry moreChangesFirst :=
  ⟨fun _ _ _ hab hbc => le_trans hbc hab⟩

def propositionsByChanges (props : List Proposition) : List ChangeEntry :=
  List.insertionSort moreChangesFirst (props.map mkChangeEntry)

/-! Stability of the sort, expressed through count-classes: the entries
with any fixed movement count appear in the output exactly as they appear
in the input. -/

theorem filter_orderedInsert_count (n : Nat) (x : ChangeEntry) (l : List ChangeEntry) :
    (List.orderedInsert moreChangesFirst x l).filter (fun e => e.numChanges == n) =
      if x.numChanges = n then x :: l.filter (fun e => e.numChanges == n)
      else l.filter (fun e => e.numChanges == n) := by
  induction l with
  | nil =>
    by_cases hx : x.numChanges = n <;>
      simp [List.orderedInsert, List.filter_cons, hx]
  | cons y ys ih =>
    by_cases hr : moreChangesFirst x y
    · rw [show List.orderedInsert moreChangesFirst x (y :: ys) = x :: y :: ys from by
        unfold List.orderedInsert
        rw [if_pos hr]]
      by_cases hx : x.numChanges = n <;> simp [List.filter_cons, hx]
    · have hgt : x.numChanges < y.numChanges := by
        unfold moreChangesFirst at hr
        omega
      rw [show List.orderedInsert moreChangesFirst x (y :: ys) =
          y :: List.orderedInsert moreChangesFirst x ys from by
        unfold List.orderedInsert
        rw [if_neg hr]
        cases ys <;> rfl]
      by_cases hx : x.numChanges = n
      · have hy : ¬(y.numChanges = n) := by omega
        simp [List.filter_cons, hx, hy, ih]
      · by_cases hy : y.numChanges = n <;> simp [List.filter_cons, hx, hy, ih]

theorem filter_insertionSort_count (n : Nat) (l : List ChangeEntry) :
    (List.insertionSort moreChangesFirst l).filter (fun e => e.numChanges == n) =
      l.filter (fun e => e.numChanges == n) := by
  induction l with
  | nil => rfl
  | cons x xs ih =>
    show (List.orderedInsert moreChangesFirst x
      (List.insertionSort moreChangesFirst xs)).filter (fun e => e.numChanges == n) = _
    rw [filter_orderedInsert_count]
    by_cases hx : x.numChanges = n <;> simp [hx, ih, List.filter_cons]

def demoRankMovs (k : Nat) : List Movement :=
  List.replicate k ⟨"2024-01-01T00:00:00", none, none⟩

def demoRankProps : List Proposition :=
  [⟨"A", "tA", demoRankMovs 3, [], none⟩, ⟨"B", "tB", demoRankMovs 7, [], none⟩,
   ⟨"C", "tC", demoRankMovs 7, [], none⟩, ⟨"D", "tD", demoRankMovs 1, [], none⟩]

/-- **C5.** The ranked-by-changes view model has one entry per proposition
with its movement count (a permutation of the per-proposition entries),
sorted descending by count; ties keep the original list order (the entries
of every fixed count appear exactly in input order), and for input counts
`[3, 7, 7, 1]` the output is the two 7-count entries in original relative
order, then the 3-count entry, then the 1-count entry. -/
theorem propositionsByChanges_spec (props : List Proposition) :
    (propositionsByChanges props).Perm (props.map mkChangeEntry) ∧
      (propositionsByChanges props).Pairwise moreChangesFirst ∧
      (∀ n, (propositionsByChanges props).filter (fun e => e.numChanges == n) =
        (props.map mkChangeEntry).filter (fun e => e.numChanges == n)) ∧
      propositionsByChanges demoRankProps =
        [⟨"B", "tB", 7⟩, ⟨"C", "tC", 7⟩, ⟨"A", "tA", 3⟩, ⟨"D", "tD", 1⟩] := by
  refine ⟨List.perm_insertionSort moreChangesFirst _,
    List.sorted_insertionSort moreChangesFirst _,
    fun n => filter_insertionSort_count n _, by decide⟩

/-! ## Weekly movement series (App.jsx lines 177–206)

```js
const weeklyCounts = {};
const allDates = new Set();
selectedPropositions.forEach(prop => {
  prop.andamentos.forEach(mov => {
    const weekStart = getWeekStart(mov.dataHora);
    allDates.add(weekStart);
    if (!weeklyCounts[weekStart]) weeklyCounts[weekStart] = {};
    if (!weeklyCounts[weekStart][prop.codigo]) weeklyCounts[weekStart][prop.codigo] = 0;
    weeklyCounts[weekStart][prop.codigo]++;
  });
});
const sortedDates = Array.from(allDates).sort();
const chartData = sortedDates.map(date => {
  const dataPoint = { name: date };
  selectedPropositions.forEach(prop => {
    dataPoint[prop.codigo] = weeklyCounts[date]?.[prop.codigo] || 0;
  });
  return dataPoint;
});
```

JS objects are modelled as insertion-ordered association lists without
duplicate keys: a write replaces the value of an existing key in place and
appends a new key at the end.  The two accumulators (`weeklyCounts` and
`allDates`) are filled by the same nested iteration, modelled as two folds
over the flattened `(weekStart, codigo)` pair sequence.  In `dataPoint`
the fixed `name` property is kept as a separate field: within this
application a proposition code always contains `/` (it parsed), so it can
never collide with the literal key `name`.  `Array.from(set).sort()`
compares the fixed-width ASCII date strings by code units, which is the
`String` linear order.  Note `weeklyCounts` is keyed by `codigo`, so two
propositions with the same code share one counter. -/

/-- JS-object property read. -/
def objGet {α : Type} (o : List (String × α)) (k : String) : Option α :=
  (o.find? (fun q => q.1 == k)).map (fun q => q.2)

/-- JS-object property write: replace in place, else append. -/
def objSet {α : Type} (o : List (String × α)) (k : String) (v : α) :
    List (String × α) :=
  match o with
  | [] => [(k, v)]
  | q :: rest => if q.1 == k then (k, v) :: rest else q :: objSet rest k v

/-- `weeklyCounts[w]?.[c] || 0`: `0` for a missing week or code (stored
counts are never `0`, so `|| 0` only converts `undefined`). -/
def get2 (m : List (String × List (String × Nat))) (w c : String) : Nat :=
  match objGet m w with
  | none => 0
  | some inner => (objGet inner c).getD 0

/-- The three statements of the inner loop body: create the week object if
absent, create the code counter if absent or `0` (falsy), increment. -/
def incr2 (m : List (String × List (String × Nat))) (w c : String) :
    List (String × List (String × Nat)) :=
  let inner := (objGet m w).getD []
  objSet m w (objSet inner c (get2 m w c + 1))

/-- The `(weekStart, codigo)` pairs in nested-loop iteration order. -/
def weekPairs (props : List Proposition) : List (String × String) :=
  props.flatMap fun p => p.andamentos.map fun mv => (getWeekStart mv.dataHora, p.codigo)

def weeklyCounts (props : List Proposition) : List (String × List (String × Nat)) :=
  (weekPairs props).foldl (fun m pr => incr2 m pr.1 pr.2) []

/-- `allDates` (a `Set`, so first-insertion order, no duplicates). -/
def allDatesList (props : List Proposition) : List String :=
  (weekPairs props).foldl (fun acc pr => if pr.1 ∈ acc then acc else acc ++ [pr.1]) []

/-- `Array.from(allDates).sort()`. -/
def sortedDates (props : List Proposition) : List String :=
  List.insertionSort (· ≤ ·) (allDatesList props)

structure DataPoint where
  name : String
  counts : List (String × Nat)
deriving DecidableEq

def mkDataPoint (props : List Proposition) (date : String) : DataPoint :=
  { name := date,
    counts := props.foldl
      (fun o p => objSet o p.codigo (get2 (weeklyCounts props) date p.codigo)) [] }

/-- The `chartData` view model. -/
def weeklyMovementData (props : List Proposition) : List DataPoint :=
  (sortedDates props).map (mkDataPoint props)

/-- The number of movements of one proposition falling in the given week. -/
def propWeekCount (p : Proposition) (date : String) : Nat :=
  (p.andamentos.filter (fun mv => decide (getWeekStart mv.dataHora = date))).length

/-- The dense-grid property claimed for the weekly series, at one input:
one point per distinct observed week-start, in strictly ascending
lexicographic order, each point carrying for every proposition the count of
its movements in that week. -/
def weeklySeriesDense (props : List Proposition) : Prop :=
  props ≠ [] →
    ((weeklyMovementData props).map DataPoint.name).Nodup ∧
      (∀ w, w ∈ (weeklyMovementData props).map DataPoint.name ↔
        ∃ p ∈ props, ∃ mv ∈ p.andamentos, getWeekStart mv.dataHora = w) ∧
      ((weeklyMovementData props).map DataPoint.name).Pairwise (· < ·) ∧
      ∀ pt ∈ weeklyMovementData props, ∀ p ∈ props,
        objGet pt.counts p.codigo = some (propWeekCount p pt.name)

/-! ### Association-list object semantics -/

theorem objGet_objSet {α : Type} (o : List (String × α)) (k k' : String) (v : α) :
    objGet (objSet o k v) k' = if k' = k then some v else objGet o k' := by
  induction o with
  | nil =>
    by_cases h : k' = k
    · subst h
      simp [objSet, objGet, List.find?]
    · have hb : (k == k') = false := beq_eq_false_iff_ne.mpr (fun he => h he.symm)
      simp [objSet, objGet, List.find?, hb, h]
  | cons q rest ih =>
    by_cases hq : q.1 = k
    · have hstep : objSet (q :: rest) k v = (k, v) :: rest := by
        unfold objSet
        rw [if_pos (beq_iff_eq.mpr hq)]
      rw [hstep]
      by_cases h : k' = k
      · subst h
        simp [objGet, List.find?]
      · have hb : (k == k') = false := beq_eq_false_iff_ne.mpr (fun he => h he.symm)
        have hqb : (q.1 == k') = false := by rw [hq]; exact hb
        simp [objGet, List.find?, hb, h, hqb]
    · have hstep : objSet (q :: rest) k v = q :: objSet rest k v := by
        unfold objSet
        rw [if_neg (by simp only [beq_iff_eq]; exact hq)]
        cases rest <;> rfl
      rw [hstep]
      by_cases hk'q : q.1 = k'
      · have h : ¬(k' = k) := fun he => hq (he ▸ hk'q)
        have hqb : (q.1 == k') = true := beq_iff_eq.mpr hk'q
        simp [objGet, List.find?, hqb, h]
      · have hqb : (q.1 == k') = false := beq_eq_false_iff_ne.mpr hk'q
        have e1 : objGet (q :: objSet rest k v) k' = objGet (objSet rest k v) k' := by
          simp [objGet, List.find?, hqb]
        have e2 : objGet (q :: rest) k' = objGet rest k' := by
          simp [objGet, List.find?, hqb]
        rw [e1, e2, ih]

theorem get2_eq (m : List (String × List (String × Nat))) (w c : String) :
    get2 m w c = (objGet ((objGet m w).getD []) c).getD 0 := by
  unfold get2
  cases h : objGet m w <;> simp [h, objGet]

theorem get2_incr2 (m : List (String × List (String × Nat))) (w c w' c' : String) :
    get2 (incr2 m w c) w' c' =
      if w' = w ∧ c' = c then get2 m w' c' + 1 else get2 m w' c' := by
  have hmain : objGet (incr2 m w c) w' =
      if w' = w then some (objSet ((objGet m w).getD []) c (get2 m w c + 1))
      else objGet m w' := by
    show objGet (objSet m w (objSet ((objGet m w).getD []) c (get2 m w c + 1))) w' = _
    exact objGet_objSet m w w' _
  rw [get2_eq (incr2 m w c) w' c', hmain]
  by_cases hw : w' = w
  · rw [if_pos hw]
    simp only [Option.getD_some]
    rw [objGet_objSet]
    by_cases hc : c' = c
    · rw [if_pos hc, if_pos ⟨hw, hc⟩]
      subst hw
      subst hc
      simp [get2_eq]
    · rw [if_neg hc, if_neg (fun hh => hc hh.2)]
      subst hw
      rw [get2_eq m w' c']
  · rw [if_neg hw, if_neg (fun hh => hw hh.1), get2_eq m w' c']

theorem get2_foldl_incr2 :
    ∀ (l : List (String × String)) (m : List (String × List (String × Nat)))
      (w c : String),
      get2 (l.foldl (fun m pr => incr2 m pr.1 pr.2) m) w c =
        get2 m w c + (l.filter (fun pr => decide (pr.1 = w ∧ pr.2 = c))).length := by
  intro l
  induction l with
  | nil => intro m w c; simp
  | cons a rest ih =>
    intro m w c
    simp only [List.foldl_cons]
    rw [ih, get2_incr2]
    by_cases hd : a.1 = w ∧ a.2 = c
    · rw [if_pos ⟨hd.1.symm, hd.2.symm⟩]
      rw [List.filter_cons, if_pos (by simpa using hd)]
      simp only [List.length_cons]
      omega
    · rw [if_neg (fun hh => hd ⟨hh.1.symm, hh.2.symm⟩)]
      rw [List.filter_cons, if_neg (by simpa using hd)]

theorem weekPairs_count :
    ∀ (props : List Proposition) (p : Proposition), p ∈ props →
      (props.map Proposition.codigo).Nodup → ∀ date : String,
      ((weekPairs props).filter
        (fun pr => decide (pr.1 = date ∧ pr.2 = p.codigo))).length =
        propWeekCount p date := by
  intro props
  induction props with
  | nil => intro p hp; simp at hp
  | cons q rest ih =>
    intro p hp hnodup date
    have hq_notin : q.codigo ∉ rest.map Proposition.codigo := by
      rw [List.map_cons, List.nodup_cons] at hnodup
      exact hnodup.1
    have hrest_nodup : (rest.map Proposition.codigo).Nodup := by
      rw [List.map_cons, List.nodup_cons] at hnodup
      exact hnodup.2
    rw [show weekPairs (q :: rest) =
        (q.andamentos.map fun mv => (getWeekStart mv.dataHora, q.codigo)) ++ weekPairs rest
      from rfl]
    rw [List.filter_append, List.length_append]
    rcases List.mem_cons.mp hp with rfl | hp'
    · have h2 : ((weekPairs rest).filter
          (fun pr => decide (pr.1 = date ∧ pr.2 = p.codigo))).length = 0 := by
        rw [List.length_eq_zero, List.filter_eq_nil_iff]
        intro pr hpr
        simp only [weekPairs, List.mem_flatMap, List.mem_map] at hpr
        obtain ⟨r, hr, mv, _, rfl⟩ := hpr
        simp only [decide_eq_true_eq, not_and]
        intro _ hcod
        exact hq_notin (hcod ▸ List.mem_map_of_mem Proposition.codigo hr)
      rw [h2]
      rw [← List.countP_eq_length_filter, List.countP_map]
      unfold propWeekCount
      rw [← List.countP_eq_length_filter]
      simp [Function.comp_def]
    · have hqp : q.codigo ≠ p.codigo := fun he =>
        hq_notin (he ▸ List.mem_map_of_mem Proposition.codigo hp')
      have h1 : ((q.andamentos.map fun mv => (getWeekStart mv.dataHora, q.codigo)).filter
          (fun pr => decide (pr.1 = date ∧ pr.2 = p.codigo))).length = 0 := by
        rw [List.length_eq_zero, List.filter_eq_nil_iff]
        intro pr hpr
        simp only [List.mem_map] at hpr
        obtain ⟨mv, _, rfl⟩ := hpr
        simp only [decide_eq_true_eq, not_and]
        intro _
        exact hqp
      rw [h1, ih p hp' hrest_nodup date, Nat.zero_add]

theorem mem_datesFold :
    ∀ (l : List (String × String)) (acc : List String) (x : String),
      (x ∈ l.foldl (fun acc pr => if pr.1 ∈ acc then acc else acc ++ [pr.1]) acc ↔
        x ∈ acc ∨ x ∈ l.map Prod.fst) := by
  intro l
  induction l with
  | nil => intro acc x; simp
  | cons a rest ih =>
    intro acc x
    simp only [List.foldl_cons, List.map_cons, List.mem_cons]
    rw [ih]
    by_cases ha : a.1 ∈ acc
    · rw [if_pos ha]
      constructor
      · rintro (h | h)
        · exact Or.inl h
        · exact Or.inr (Or.inr h)
      · rintro (h | h | h)
        · exact Or.inl h
        · exact Or.inl (h ▸ ha)
        · exact Or.inr h
    · rw [if_neg ha]
      simp only [List.mem_append, List.mem_singleton]
      tauto

theorem nodup_datesFold :
    ∀ (l : List (String × String)) (acc : List String), acc.Nodup →
      (l.foldl (fun acc pr => if pr.1 ∈ acc then acc else acc ++ [pr.1]) acc).Nodup := by
  intro l
  induction l with
  | nil => intro acc h; simpa using h
  | cons a rest ih =>
    intro acc h
    simp only [List.foldl_cons]
    by_cases ha : a.1 ∈ acc
    · rw [if_pos ha]
      exact ih acc h
    · rw [if_neg ha]
      refine ih _ ?_
      simp [List.nodup_append, h, ha]

theorem objGet_points_fold (g : String → Nat) :
    ∀ (l : List Proposition) (acc : List (String × Nat)) (c : String),
      objGet (l.foldl (fun o p => objSet o p.codigo (g p.codigo)) acc) c =
        if c ∈ l.map Proposition.codigo then some (g c) else objGet acc c := by
  intro l
  induction l with
  | nil => intro acc c; simp
  | cons p rest ih =>
    intro acc c
    simp only [List.foldl_cons, List.map_cons, List.mem_cons]
    rw [ih]
    by_cases hc : c ∈ rest.map Proposition.codigo
    · rw [if_pos hc, if_pos (Or.inr hc)]
    · rw [if_neg hc, objGet_objSet]
      by_cases he : c = p.codigo
      · rw [if_pos he, if_pos (Or.inl he)]
        rw [he]
      · rw [if_neg he, if_neg (by tauto)]

theorem weeklyMovementData_names (props : List Proposition) :
    (weeklyMovementData props).map DataPoint.name = sortedDates props := by
  unfold weeklyMovementData
  rw [List.map_map]
  simp [Function.comp_def, mkDataPoint]

/-- The proposition list violating C1 as stated: two propositions share
the code `"X"`, so the single chart key `"X"` carries the merged count `2`
while each proposition has exactly one movement in that week. -/
def weeklyCexProps : List Proposition :=
  [⟨"X", "t1", [⟨"2024-01-10T10:00:00", none, none⟩], [], none⟩,
   ⟨"X", "t2", [⟨"2024-01-09T10:00:00", none, none⟩], [], none⟩]

/-- Counterexample for C1 as stated: on `weeklyCexProps` (non-empty), the
unique data point's entry for code `"X"` is `2`, not the per-proposition
count `1`. -/
theorem weeklySeries_counterexample : ¬ weeklySeriesDense weeklyCexProps := by
  intro h
  obtain ⟨-, -, -, h4⟩ := h (by decide)
  have hpt : mkDataPoint weeklyCexProps "2024-01-07" ∈ weeklyMovementData weeklyCexProps := by
    decide
  have hp0 : (⟨"X", "t1", [⟨"2024-01-10T10:00:00", none, none⟩], [], none⟩ : Proposition) ∈
      weeklyCexProps := by decide
  have hcount := h4 _ hpt _ hp0
  exact absurd hcount (by decide)

/-- **C1 (amended).** For every non-empty proposition list whose codes are
pairwise distinct (the chart is keyed by code, so duplicated codes share
one merged counter), the weekly series is a dense grid: exactly one data
point per distinct observed week-start date, in strictly ascending
lexicographic order, each point holding for every proposition the count of
that proposition's movements in that week, `0` when absent. -/
theorem weeklySeries_spec (props : List Proposition)
    (hnodup : (props.map Proposition.codigo).Nodup) : weeklySeriesDense props := by
  intro _
  have hperm := List.perm_insertionSort ((· ≤ ·) : String → String → Prop) (allDatesList props)
  have hnodupDates : (allDatesList props).Nodup := nodup_datesFold _ [] List.nodup_nil
  have hnodupSorted : (sortedDates props).Nodup := hperm.nodup_iff.mpr hnodupDates
  refine ⟨?_, ?_, ?_, ?_⟩
  · rw [weeklyMovementData_names]
    exact hnodupSorted
  · intro w
    rw [weeklyMovementData_names]
    show w ∈ List.insertionSort _ _ ↔ _
    rw [hperm.mem_iff]
    unfold allDatesList
    rw [mem_datesFold]
    simp only [List.not_mem_nil, false_or, weekPairs, List.map_flatMap, List.mem_flatMap,
      List.mem_map, List.map_map]
    constructor
    · rintro ⟨p, hp, hw⟩
      simp only [List.mem_map, Function.comp_def] at hw
      obtain ⟨mv, hmv, rfl⟩ := hw
      exact ⟨p, hp, mv, hmv, rfl⟩
    · rintro ⟨p, hp, mv, hmv, rfl⟩
      refine ⟨p, hp, ?_⟩
      simp only [List.mem_map, Function.comp_def]
      exact ⟨mv, hmv, rfl⟩
  · rw [weeklyMovementData_names]
    exact List.Sorted.lt_of_le (List.sorted_insertionSort _ _) hnodupSorted
  · intro pt hpt p hp
    unfold weeklyMovementData at hpt
    obtain ⟨date, _, rfl⟩ := List.mem_map.mp hpt
    show objGet (mkDataPoint props date).counts p.codigo =
      some (propWeekCount p (mkDataPoint props date).name)
    unfold mkDataPoint
    simp only
    rw [objGet_points_fold (fun c => get2 (weeklyCounts props) date c) props [] p.codigo]
    rw [if_pos (List.mem_map_of_mem Proposition.codigo hp)]
    congr 1
    unfold weeklyCounts
    rw [get2_foldl_incr2]
    rw [show get2 [] date p.codigo = 0 from rfl, Nat.zero_add]
    exact weekPairs_count props p hp hnodup date

def weeklyDemoProps : List Proposition :=
  [⟨"PL 1/2023", "t1",
    [⟨"2024-01-10T10:00:00", none, none⟩, ⟨"2024-01-02T10:00:00", none, none⟩], [], none⟩,
   ⟨"PEC 2/2022", "t2", [⟨"2024-01-09T10:00:00", none, none⟩], [], none⟩]

/-- Witness for C1 (amended): the dense-grid property applied to a
two-proposition list with distinct codes. -/
theorem weeklySeries_spec_witness :
    ((weeklyMovementData weeklyDemoProps).map DataPoint.name).Nodup ∧
      ((weeklyMovementData weeklyDemoProps).map DataPoint.name).Pairwise (· < ·) := by
  have h := weeklySeries_spec weeklyDemoProps (by decide) (by decide)
  exact ⟨h.1, h.2.2.1⟩

/-! ## Batch orchestration (`handleProcessPropositions`, App.jsx lines 225–286)

```js
const codes = propositionCodesInput.split(',').map(code => code.trim())
  .filter(code => code !== '');
if (codes.length === 0) { setErrorMessage('Por favor, ...'); return; }
for (const code of codes) {
  const parsedCode = parsePropositionCode(code);
  if (!parsedCode) { notFoundCodes.push(code); continue; }
  try {
    const propositionId = await fetchPropositionId(...);
    if (propositionId) {
      const details = await fetchPropositionDetails(propositionId);
      const movements = await fetchPropositionMovements(propositionId);
      if (details) { fetchedPropositions.push({...}); }
      else { notFoundCodes.push(code); }
    } else { notFoundCodes.push(code); }
  } catch (error) { notFoundCodes.push(`${code} (Erro: ${error.message})`); }
}
```

The three remote operations are abstracted as oracle functions on an `Api`
record: `Except.error msg` models a thrown error carrying `error.message`
(the fetch helpers convert both transport failures and non-success HTTP
responses into thrown errors), `Except.ok` a successful response;
`fetchId` returns `none` for the zero-match outcome (`data.dados` empty).
Each `processCode` result also carries the number of network requests the
iteration issued, so that "no network call" is expressible. -/

structure Details where
  ementa : Option String
  nome : Option String
  autores : Option (List String)
  statusProposicao : Option StatusInfo
deriving DecidableEq

structure Api where
  fetchId : String → Int → Int → Except String (Option Nat)
  fetchDetails : Nat → Except String (Option Details)
  fetchMovements : Nat → Except String (List Movement)

/-- The proposition record pushed on success (App.jsx lines 256–263). -/
def mkProposition (code : String) (det : Details) (movs : List Movement) : Proposition :=
  { codigo := code,
    titulo := jsStrOr det.ementa (jsStrOr det.nome "Título não disponível"),
    andamentos := movs,
    autores := det.autores.getD [],
    statusProposicao := det.statusProposicao }

/-- One iteration of the `for (const code of codes)` loop.  `fetchDetails`
and `fetchMovements` are both awaited before the `if (details)` test, so a
movements failure takes precedence over a null details record. -/
def processCode (api : Api) (code : String) : (Proposition ⊕ String) × Nat :=
  match parsePropositionCode code with
  | none => (Sum.inr code, 0)
  | some pc =>
    match api.fetchId pc.siglaTipo pc.numero pc.ano with
    | Except.error msg => (Sum.inr (code ++ " (Erro: " ++ msg ++ ")"), 1)
    | Except.ok none => (Sum.inr code, 1)
    | Except.ok (some pid) =>
      match api.fetchDetails pid with
      | Except.error msg => (Sum.inr (code ++ " (Erro: " ++ msg ++ ")"), 2)
      | Except.ok details =>
        match api.fetchMovements pid with
        | Except.error msg => (Sum.inr (code ++ " (Erro: " ++ msg ++ ")"), 3)
        | Except.ok movs =>
          match details with
          | none => (Sum.inr code, 3)
          | some det => (Sum.inl (mkProposition code det movs), 3)

/-- The loop: accumulate fetched propositions and unresolved entries in
input order, summing the issued network requests. -/
def runBatch (api : Api) (codes : List String) : List Proposition × List String × Nat :=
  codes.foldl
    (fun acc code =>
      match processCode api code with
      | (Sum.inl p, n) => (acc.1 ++ [p], acc.2.1, acc.2.2 + n)
      | (Sum.inr e, n) => (acc.1, acc.2.1 ++ [e], acc.2.2 + n))
    ([], [], 0)

/-- `input.split(',')` on the character list (`''.split(',')` is `['']`). -/
def splitCommas (l : List Char) : List (List Char) :=
  match l with
  | [] => [[]]
  | c :: rest =>
    let r := splitCommas rest
    if c = ',' then [] :: r
    else
      match r with
      | [] => [[c]]
      | x :: xs => (c :: x) :: xs

/-- `String.prototype.trim`: strip the ECMAScript whitespace set from both
ends. -/
def jsTrim (s : String) : String :=
  String.mk (((s.data.dropWhile isRegexSpace).reverse.dropWhile isRegexSpace).reverse)

/-- `split(',').map(trim).filter(code => code !== '')`. -/
def codesOf (input : String) : List String :=
  (((splitCommas input.data).map String.mk).map jsTrim).filter (fun c => c != "")

def msgEmpty : String := "Por favor, insira pelo menos um código de proposição."

def msgNotFound (nf : List String) : String :=
  "Não foi possível encontrar ou processar as seguintes proposições: " ++
    String.intercalate ", " nf ++
    ". Verifique os códigos e tente novamente. Isso pode ser devido a problemas de rede ou dados não disponíveis na API."

def msgNoneFound : String := "Nenhuma proposição encontrada para os códigos informados."

structure ProcessState where
  selectedPropositions : List Proposition
  errorMessage : String
  calls : Nat
deriving DecidableEq

/-- `handleProcessPropositions` (App.jsx lines 225–286), with loading-flag
bookkeeping elided and the issued-request count made explicit. -/
def handleProcessPropositions (api : Api) (input : String) : ProcessState :=
  let codes := codesOf input
  if codes.isEmpty then
    { selectedPropositions := [], errorMessage := msgEmpty, calls := 0 }
  else
    let r := runBatch api codes
    { selectedPropositions := r.1,
      errorMessage :=
        if r.2.1 ≠ [] then msgNotFound r.2.1
        else if r.1 = [] then msgNoneFound
        else "",
      calls := r.2.2 }

theorem runBatch_foldl (api : Api) :
    ∀ (codes : List String) (fp : List Proposition) (nf : List String) (n : Nat),
      codes.foldl
        (fun acc code =>
          match processCode api code with
          | (Sum.inl p, k) => (acc.1 ++ [p], acc.2.1, acc.2.2 + k)
          | (Sum.inr e, k) => (acc.1, acc.2.1 ++ [e], acc.2.2 + k))
        (fp, nf, n) =
      (fp ++ codes.filterMap (fun c => ((processCode api c).1).getLeft?),
       nf ++ codes.filterMap (fun c => ((processCode api c).1).getRight?),
       n + (codes.map (fun c => (processCode api c).2)).sum) := by
  intro codes
  induction codes with
  | nil => intro fp nf n; simp
  | cons code rest ih =>
    intro fp nf n
    simp only [List.foldl_cons, List.filterMap_cons, List.map_cons, List.sum_cons]
    rcases hpc : processCode api code with ⟨s | e, k⟩
    · simp only [hpc]
      rw [ih]
      simp [Sum.getLeft?, Sum.getRight?, List.append_assoc]
      omega
    · simp only [hpc]
      rw [ih]
      simp [Sum.getLeft?, Sum.getRight?, List.append_assoc]
      omega

def demoDetails : Details := ⟨some "Ementa", none, some [], none⟩

def demoMovs : List Movement := [⟨"2024-01-10T10:00:00", some "Despacho", none⟩]

/-- An oracle on which the code numbered 2 resolves to zero matches
(NotFound) and every other code resolves and fetches successfully. -/
def demoApi : Api :=
  { fetchId := fun _ n _ => if n = 2 then Except.ok none else Except.ok (some n.toNat),
    fetchDetails := fun _ => Except.ok (some demoDetails),
    fetchMovements := fun _ => Except.ok demoMovs }

/-- **C3.** No per-code failure aborts the batch: for every oracle and
code list, the fetched list, the unresolved list and the request count are
exactly the per-code outcomes accumulated independently in input order
(so each code's result cannot be affected by another code's failure); in
the 3-code batch where only code #2 fails resolution, codes #1 and #3
yield their full propositions and the unresolved list is exactly code #2. -/
theorem runBatch_spec :
    (∀ (api : Api) (codes : List String),
      runBatch api codes =
        (codes.filterMap (fun c => ((processCode api c).1).getLeft?),
         codes.filterMap (fun c => ((processCode api c).1).getRight?),
         (codes.map (fun c => (processCode api c).2)).sum)) ∧
      runBatch demoApi ["PL 1/2023", "PL 2/2023", "PL 3/2023"] =
        ([mkProposition "PL 1/2023" demoDetails demoMovs,
          mkProposition "PL 3/2023" demoDetails demoMovs],
         ["PL 2/2023"], 7) := by
  constructor
  · intro api codes
    unfold runBatch
    rw [runBatch_foldl api codes [] [] 0]
    simp
  · rfl

theorem processCode_parse_none {api : Api} {code : String}
    (h : parsePropositionCode code = none) :
    processCode api code = (Sum.inr code, 0) := by
  unfold processCode
  rw [h]

theorem processCode_calls_pos (api : Api) {code : String}
    (h : parsePropositionCode code ≠ none) :
    1 ≤ (processCode api code).2 := by
  unfold processCode
  cases hp : parsePropositionCode code with
  | none => exact absurd hp h
  | some pc =>
    cases hfid : api.fetchId pc.siglaTipo pc.numero pc.ano with
    | error msg => simp [hfid]
    | ok oid =>
      cases oid with
      | none => simp [hfid]
      | some pid =>
        cases hdet : api.fetchDetails pid with
        | error msg => simp [hfid, hdet]
        | ok det =>
          cases hmov : api.fetchMovements pid with
          | error msg => simp [hfid, hdet, hmov]
          | ok movs => cases det <;> simp [hfid, hdet, hmov]

theorem string_append_ne_empty_left {a : String} (b : String) (ha : a ≠ "") :
    a ++ b ≠ "" := by
  intro h
  apply ha
  have hd : (a ++ b).data = [] := congrArg String.data h
  rw [String.data_append] at hd
  rcases List.append_eq_nil.mp hd with ⟨h1, _⟩
  cases a with
  | mk data =>
    simp only [String.data] at h1
    rw [h1]

theorem msgNotFound_ne_empty (nf : List String) : msgNotFound nf ≠ "" := by
  unfold msgNotFound
  exact string_append_ne_empty_left _ (string_append_ne_empty_left _ (by decide))

/-- **C9.** The empty / all-whitespace / entirely-unparseable input is
exactly the condition under which the process action issues no network
call; in that condition it produces no propositions and surfaces a single
non-empty guidance message. -/
theorem handleProcess_fatal_spec (api : Api) (input : String) :
    ((codesOf input = [] ∨ ∀ c ∈ codesOf input, parsePropositionCode c = none) ↔
      (handleProcessPropositions api input).calls = 0) ∧
      ((codesOf input = [] ∨ ∀ c ∈ codesOf input, parsePropositionCode c = none) →
        (handleProcessPropositions api input).selectedPropositions = [] ∧
          (handleProcessPropositions api input).errorMessage ≠ "") := by
  by_cases hc : codesOf input = []
  · have hstate : handleProcessPropositions api input =
        { selectedPropositions := [], errorMessage := msgEmpty, calls := 0 } := by
      unfold handleProcessPropositions
      rw [if_pos (by simp [hc])]
    rw [hstate]
    refine ⟨⟨fun _ => rfl, fun _ => Or.inl hc⟩, fun _ => ⟨rfl, by decide⟩⟩
  · have hstate : handleProcessPropositions api input =
        { selectedPropositions := (runBatch api (codesOf input)).1,
          errorMessage :=
            if (runBatch api (codesOf input)).2.1 ≠ [] then
              msgNotFound (runBatch api (codesOf input)).2.1
            else if (runBatch api (codesOf input)).1 = [] then msgNoneFound
            else "",
          calls := (runBatch api (codesOf input)).2.2 } := by
      unfold handleProcessPropositions
      rw [if_neg (by simp [hc])]
    have hbatch := runBatch_foldl api (codesOf input) [] [] 0
    rw [hstate]
    have hcalls : (runBatch api (codesOf input)).2.2 =
        ((codesOf input).map (fun c => (processCode api c).2)).sum := by
      unfold runBatch
      rw [hbatch]
      simp
    constructor
    · constructor
      · rintro (h | h)
        · exact absurd h hc
        · simp only [hcalls]
          rw [List.sum_eq_zero]
          intro x hx
          obtain ⟨c, hcmem, rfl⟩ := List.mem_map.mp hx
          rw [processCode_parse_none (h c hcmem)]
      · intro h0
        right
        intro c hcmem
        by_contra hne
        have hpos := processCode_calls_pos api hne
        simp only [hcalls] at h0
        have hmem : (processCode api c).2 ∈
            (codesOf input).map (fun c => (processCode api c).2) :=
          List.mem_map_of_mem _ hcmem
        have := List.sum_eq_zero_iff.mp h0 _ hmem
        omega
    · rintro (h | h)
      · exact absurd h hc
      · have hall : ∀ c ∈ codesOf input, processCode api c = (Sum.inr c, 0) :=
          fun c hcmem => processCode_parse_none (h c hcmem)
        have hfp : (runBatch api (codesOf input)).1 = [] := by
          unfold runBatch
          rw [hbatch]
          simp only [List.nil_append]
          rw [List.filterMap_eq_nil_iff]
          intro c hcmem
          rw [hall c hcmem]
          rfl
        have hnf : (runBatch api (codesOf input)).2.1 = codesOf input := by
          unfold runBatch
          rw [hbatch]
          simp only [List.nil_append]
          rw [List.filterMap_eq_map_iff_forall_eq_some.mpr ?_]
          · exact List.map_id _
          · intro c hcmem
            rw [hall c hcmem]
            rfl
        refine ⟨hfp, ?_⟩
        rw [hnf, if_pos (by simpa using hc)]
        exact msgNotFound_ne_empty _

def noApi : Api :=
  ⟨fun _ _ _ => Except.error "offline", fun _ => Except.error "offline",
   fun _ => Except.error "offline"⟩

/-- Witness for C9: an all-whitespace input short-circuits — no
propositions and a non-empty guidance message — regardless of the oracle. -/
theorem handleProcess_fatal_spec_witness :
    (handleProcessPropositions noApi "  ,  ").selectedPropositions = [] ∧
      (handleProcessPropositions noApi "  ,  ").errorMessage ≠ "" :=
  (handleProcess_fatal_spec noApi "  ,  ").2 (Or.inl (by decide))
